import Mathlib

/-!
Shallow embedding of the question-resolution and evidence-selection pipeline
of `rag_challenge.py` (class `PDFQuestionAnswerer`, function `main`) together
with proofs of the specification claims about it.

External collaborators (the OpenAI client, PyPDF2 text extraction, the file
system) are modelled as explicit function parameters gathered in `Env`:
  * `nameOracle` models `_extract_company_name_with_llm` (the reply already
    includes the exception case as `none`; a `some` reply is stripped by the
    caller, as in the source);
  * `pdfExists` models `pdf_path.exists()` keyed by sha1;
  * `pdfPages` models `extract_text_from_pdf` keyed by sha1;
  * `oracle` models the chat-completion call inside
    `answer_question_with_llm`; it receives the index of the call (calls are
    strictly sequential in the source) plus question, context and kind, and
    returns `none` exactly when the call raises.
Floating point confidences only ever take the values `0.0` and `0.9` in the
source; they are embedded exactly as the rationals `0` and `9/10`.
Functions return, besides their Python return value, the updated index of the
next answering-oracle call, so that the number of oracle calls a code path
makes is observable.
-/

namespace RagChallenge

/-- Python `needle in hay` on lists of characters. -/
def listContainsSub (needle : List Char) : List Char → Bool
  | [] => needle.isEmpty
  | c :: rest => needle.isPrefixOf (c :: rest) || listContainsSub needle rest

/-- Python `needle in hay` for strings (substring containment). -/
def strContains (hay needle : String) : Bool :=
  listContainsSub needle.data hay.data

/-- Python `str.lower()`: lowercase every character (ASCII; the metadata and
questions of this repository are ASCII). -/
def pyLower (s : String) : String :=
  String.mk (s.data.map Char.toLower)

/-- Python `str.strip()`: drop leading and trailing whitespace. -/
def pyTrim (s : String) : String :=
  String.mk
    (((s.data.dropWhile Char.isWhitespace).reverse.dropWhile
      Char.isWhitespace).reverse)

/-- Worker for `pyWords`: the accumulator holds the current word
reversed. -/
def wordsAux : List Char → List Char → List String
  | [], acc => if acc.isEmpty then [] else [String.mk acc.reverse]
  | c :: rest, acc =>
    if c.isWhitespace then
      if acc.isEmpty then wordsAux rest []
      else String.mk acc.reverse :: wordsAux rest []
    else wordsAux rest (c :: acc)

/-- Python `str.split()` with no argument: split on whitespace runs, no
empty tokens. -/
def pyWords (s : String) : List String := wordsAux s.data []

/-- `len(set(a.split()) & set(b.split()))`: the number of distinct words of
`a` that also occur in `b`. -/
def overlapScore (a b : String) : Nat :=
  (((pyWords a).dedup).filter (fun w => w ∈ pyWords b)).length

/-! ### The regular-expression company-name extractor

`extract_company_name` tries five patterns in order via `re.search`.  Every
pattern has the shape

    LIT₁ \s+ LIT₂ \s+ ... \s+ ([^,\.]+?) SUF

where `SUF` is a literal `,`, a literal string, or `\s+` followed by a
literal.  `re.search` semantics for this shape: the leftmost start position
wins; at a given start position the final `\s+` is greedy (longest whitespace
run first, backtracking downwards) and the capture is lazy (shortest first).
The inner `\s+` occurrences between literals are deterministic because every
following literal starts with a non-whitespace character, so only consuming
the whole whitespace run can succeed. -/

/-- Length of the leading whitespace run (what a greedy `\s+` consumes
first). -/
def wsCount : List Char → Nat
  | [] => 0
  | c :: rest => if c.isWhitespace then wsCount rest + 1 else 0

/-- The suffix that follows the lazy capture group in each pattern. -/
inductive Suf where
  | comma
  | wsLit (lit : List Char)
  | lit (l : List Char)

/-- Does the suffix of the pattern match at this position?  For `wsLit`, the
literal begins with a non-whitespace character, so the greedy `\s+` can only
succeed by consuming the whole whitespace run. -/
def sufMatches : Suf → List Char → Bool
  | .comma, cs =>
    match cs with
    | ',' :: _ => true
    | _ => false
  | .wsLit l, cs =>
    let m := wsCount cs
    decide (1 ≤ m) && l.isPrefixOf (cs.drop m)
  | .lit l, cs => l.isPrefixOf cs

/-- Lazy capture `([^,\.]+?)`: the shortest non-empty block of characters
other than `,` and `.` after which the suffix matches. -/
def findCap (suf : Suf) : List Char → Option (List Char)
  | [] => none
  | c :: rest =>
    if c = ',' || c = '.' then none
    else if sufMatches suf rest then some [c]
    else
      match findCap suf rest with
      | some cap => some (c :: cap)
      | none => none

/-- Backtracking over the final greedy `\s+` before the capture: try the
whitespace-run lengths `w, w-1, ..., 1` in that order (the regex engine
shortens a greedy quantifier only after the lazy capture has failed for the
longer run). -/
def tryWs (suf : Suf) (cs : List Char) : Nat → Option (List Char)
  | 0 => none
  | w + 1 =>
    match findCap suf (cs.drop (w + 1)) with
    | some cap => some cap
    | none => tryWs suf cs w

/-- Match the literal/whitespace prefix of a pattern at the current position,
then run the capture machinery after the last literal. -/
def matchPats (pres : List (List Char)) (suf : Suf) (cs : List Char) :
    Option (List Char) :=
  match pres with
  | [] => none
  | [l] =>
    if l.isPrefixOf cs then
      let t := cs.drop l.length
      tryWs suf t (wsCount t)
    else none
  | l :: l2 :: rest =>
    if l.isPrefixOf cs then
      let t := cs.drop l.length
      let m := wsCount t
      if m = 0 then none else matchPats (l2 :: rest) suf (t.drop m)
    else none

/-- `re.search`: try every start position from the left; the first position
where the whole pattern matches wins. -/
def scanPat (pres : List (List Char)) (suf : Suf) : List Char → Option (List Char)
  | [] => none
  | c :: rest =>
    match matchPats pres suf (c :: rest) with
    | some cap => some cap
    | none => scanPat pres suf rest

/-- One extraction pattern: literals separated by `\s+`, then the lazy
capture, then the suffix. -/
structure Pat where
  pres : List (List Char)
  suf : Suf

/-- The five patterns of `extract_company_name`, in source order. -/
def patterns : List Pat :=
  [ ⟨["For".data], Suf.comma⟩,
    ⟨["Did".data], Suf.wsLit "announce".data⟩,
    ⟨["by".data], Suf.wsLit "according".data⟩,
    ⟨["at".data], Suf.wsLit "in".data⟩,
    ⟨["What".data, "is".data, "the".data], Suf.lit ['\'', 's']⟩ ]

/-- `re.search(pattern, question)` returning `match.group(1)` (untrimmed). -/
def runPat (p : Pat) (question : String) : Option String :=
  (scanPat p.pres p.suf question.data).map (fun cs => String.mk cs)

/-- The `for pattern in patterns:` loop: first pattern with a match wins. -/
def firstPatternMatch : List Pat → String → Option String
  | [], _ => none
  | p :: rest, q =>
    match runPat p q with
    | some g => some g
    | none => firstPatternMatch rest q

/-- `extract_company_name`: pattern rules first (returning the stripped
captured group), LLM fallback otherwise (its reply is also stripped; `none`
models the exception path returning `None`). -/
def extract_company_name (nameOracle : String → Option String)
    (question : String) : Option String :=
  match firstPatternMatch patterns question with
  | some g => some (pyTrim g)
  | none => (nameOracle question).map pyTrim

/-! ### The metadata index and document resolution -/

/-- One record of the PDF metadata file (`pdf-meta.json`), restricted to the
fields the pipeline reads.  A `none` flag models an absent JSON key
(`meta.get(key, False)` then yields `False`). -/
structure Meta where
  company_name : String
  sha1 : String
  has_share_buyback_plans : Option Bool
  has_dividend_policy_changes : Option Bool
  mentions_recent_mergers_and_acquisitions : Option Bool
deriving Repr, DecidableEq

/-- The `{}` default of `self.sha1_to_meta.get(sha1, {})`. -/
def emptyMeta : Meta := ⟨"", "", none, none, none⟩

/-- Python `dict` assignment: overwriting an existing key keeps the key's
original position; a new key goes to the end. -/
def dictInsert (k : String) (v : β) : List (String × β) → List (String × β)
  | [] => [(k, v)]
  | (k', v') :: rest =>
    if k' = k then (k', v) :: rest else (k', v') :: dictInsert k v rest

/-- Python `d.get(k)` / `k in d` on the association-list model. -/
def dictGet (k : String) : List (String × β) → Option β
  | [] => none
  | (k', v) :: rest => if k' = k then some v else dictGet k rest

/-- `self.company_to_sha1 = {meta["company_name"].lower(): meta["sha1"] for
meta in self.pdf_meta}`: keys are lowercased names, in first-insertion
order, last value wins. -/
def buildCompanyIndex (metas : List Meta) : List (String × String) :=
  metas.foldl (fun d m => dictInsert (pyLower m.company_name) m.sha1 d) []

/-- `self.sha1_to_meta = {meta["sha1"]: meta for meta in self.pdf_meta}`. -/
def buildMetaIndex (metas : List Meta) : List (String × Meta) :=
  metas.foldl (fun d m => dictInsert m.sha1 m d) []

/-- The fuzzy-matching loop of `find_pdf_for_company`: scan the index in
iteration order carrying `(best_score, best_match)`; update only on a
strictly larger word-overlap score. -/
def fuzzyBest (cl : String) :
    List (String × String) → Nat → Option String → Option String
  | [], _, best => best
  | (name, sha1) :: rest, bestScore, best =>
    let ov := overlapScore cl name
    if bestScore < ov then fuzzyBest cl rest ov (some sha1)
    else fuzzyBest cl rest bestScore best

/-- `find_pdf_for_company`: exact lowercase lookup first, then the fuzzy
word-overlap scan.  `best_match` is non-`None` exactly when `best_score > 0`,
so the final `if best_score > 0` test of the source is the identity on the
scan's result. -/
def find_pdf_for_company (index : List (String × String))
    (company_name : String) : Option String :=
  let company_lower := pyLower company_name
  match dictGet company_lower index with
  | some sha1 => some sha1
  | none => fuzzyBest company_lower index 0 none

/-! ### Page prioritization -/

def financial_keywords : List String :=
  ["financial statements", "balance sheet", "income statement", "cash flow",
   "financial results"]

def leadership_keywords : List String :=
  ["board of directors", "executive officers", "management", "leadership"]

def risk_keywords : List String :=
  ["risk factors", "risks", "uncertainties"]

/-- Does a keyword cluster fire for this page: some keyword occurs in the
lowercased page text AND the topic cue occurs in the lowercased question. -/
def clusterHit (keywords : List String) (cue ql pageLower : String) : Bool :=
  keywords.any (fun k => strContains pageLower k) && strContains ql cue

/-- The occurrences (0 to 3 copies of the page index) one page contributes to
`priority_pages`, in the source's append order: financial, leadership,
risk. -/
def pageHits (ql : String) (e : Nat × String) : List Nat :=
  let pl := pyLower e.2
  (if clusterHit financial_keywords "financial" ql pl then [e.1] else []) ++
  (if clusterHit leadership_keywords "leadership" ql pl then [e.1] else []) ++
  (if clusterHit risk_keywords "risk" ql pl then [e.1] else [])

/-- The `for i, page in enumerate(pages):` loop building `priority_pages`.
`ql` is `question_text.lower()`. -/
def prioritizePages (ql : String) (pages : List String) : List Nat :=
  pages.enum.flatMap (pageHits ql)

/-! ### The answering oracle and the evidence-selection loops -/

/-- The chat-completion collaborator inside `answer_question_with_llm`:
argument 1 is the index of the call (calls are strictly sequential), then
question, context and kind; `none` models a raised exception. -/
abbrev Oracle := Nat → String → String → String → Option String

/-- `answer_question_with_llm`: on success the reply is stripped and paired
with the placeholder confidence `0.9`; on any exception the result is
`("N/A", 0.0)`.  Also returns the next call index. -/
def answer_question_with_llm (o : Oracle) (n : Nat)
    (question context kind : String) : (String × ℚ) × Nat :=
  match o n question context kind with
  | some reply => ((pyTrim reply, mkRat 9 10), n + 1)
  | none => (("N/A", 0), n + 1)

/-- The mutable triple `(best_answer, best_confidence, best_page_idx)` of
`process_question`; `best_page_idx` starts at the sentinel `-1`. -/
structure SelState where
  best_answer : String
  best_confidence : ℚ
  best_page_idx : Int
deriving Repr, DecidableEq

def initialSelState : SelState := ⟨"N/A", 0, -1⟩

/-- `f"Page {idx}: {text}"`. -/
def pageLabel (idx : Nat) (text : String) : String :=
  "Page " ++ toString idx ++ ": " ++ text

/-- `"\n\n".join(...)` over the labelled pages of a batch. -/
def batchContext (chunk : List (Nat × String)) : String :=
  String.intercalate "\n\n" (chunk.map (fun e => pageLabel e.1 e.2))

/-- The inner page-localization loop shared by both passes: re-query the
oracle once per page of the accepted batch (context = the bare page text) and
take the first page whose answer string equals the batch answer, leaving the
previous index on no match.  Returns the chosen index and the next call
index. -/
def localizePage (o : Oracle) (question kind target : String) :
    List (Nat × String) → Nat → Int → Int × Nat
  | [], n, cur => (cur, n)
  | (idx, pg) :: rest, n, cur =>
    let r := answer_question_with_llm o n question pg kind
    if r.1.1 = target then ((idx : Int), r.2)
    else localizePage o question kind target rest r.2 cur

/-- Both batch loops of `process_question`, one batch per list element (the
page indices of a chunk paired with their texts): query the oracle on the
labelled batch context; if the confidence strictly exceeds the current best
and the answer is not `"N/A"`, accept the batch and localize the page.
Besides state and call index, the list of batch-level answers is returned in
processing order. -/
def runBatches (o : Oracle) (question kind : String) :
    List (List (Nat × String)) → SelState → Nat →
    SelState × Nat × List String
  | [], st, n => (st, n, [])
  | chunk :: rest, st, n =>
    let r := answer_question_with_llm o n question (batchContext chunk) kind
    let ans := r.1.1
    let conf := r.1.2
    let step :=
      if st.best_confidence < conf ∧ ans ≠ "N/A" then
        let loc := localizePage o question kind ans chunk r.2 st.best_page_idx
        ((⟨ans, conf, loc.1⟩ : SelState), loc.2)
      else (st, r.2)
    let out := runBatches o question kind rest step.1 step.2
    (out.1, out.2.1, ans :: out.2.2)

/-- Worker for `chunksOf5`, structurally recursive on a fuel bounded by the
list length (each step consumes at least one element). -/
def chunksOf5Aux : Nat → List α → List (List α)
  | 0, _ => []
  | _, [] => []
  | n + 1, x :: xs => (x :: xs.take 4) :: chunksOf5Aux n (xs.drop 4)

/-- `l[i:i+5] for i in range(0, len(l), 5)`. -/
def chunksOf5 (l : List α) : List (List α) :=
  chunksOf5Aux l.length l

/-- `any(i <= p < i + batch_size for p in priority_pages)` where `i` is the
first page index of the window (windows of the remaining pass start at
multiples of 5 and the test always uses the full width 5). -/
def skipChunk (priority : List Nat) (chunk : List (Nat × String)) : Bool :=
  match chunk with
  | [] => false
  | (i, _) :: _ => priority.any (fun p => decide (i ≤ p) && decide (p < i + 5))

/-- The priority batches: `priority_pages` chunked by position into groups of
5, each index paired with its page text (`pages[idx]`). -/
def priorityBatches (priority : List Nat) (pages : List String) :
    List (List (Nat × String)) :=
  (chunksOf5 priority).map (fun b => b.map (fun idx => (idx, pages.getD idx "")))

/-- The remaining-pass batches: all pages chunked 5 at a time in natural
order, dropping every window that overlaps the priority list.  (A skipped
window makes no oracle call and leaves the state untouched, so filtering
before the loop is the behaviour of the `continue` in the source.) -/
def remainingBatches (priority : List Nat) (pages : List String) :
    List (List (Nat × String)) :=
  (chunksOf5 pages.enum).filter (fun c => !skipChunk priority c)

/-- The page-scanning part of `process_question` (lines building
`priority_pages` through the two batch passes), instrumented with the batch
answers of the two passes.  The `if priority_pages:` guard of the source is
dropped because iterating over zero batches already does nothing.  The
remaining pass runs only when the priority pass left `best_answer` at
`"N/A"`. -/
def selectAnswerTr (o : Oracle) (question kind : String)
    (pages : List String) (priority : List Nat) (n : Nat) :
    SelState × Nat × List String × List String :=
  let pr := runBatches o question kind (priorityBatches priority pages)
      initialSelState n
  if pr.1.best_answer = "N/A" then
    let rm := runBatches o question kind (remainingBatches priority pages)
        pr.1 pr.2.1
    (rm.1, rm.2.1, pr.2.2, rm.2.2)
  else (pr.1, pr.2.1, pr.2.2, [])

/-! ### The question processor -/

structure Question where
  text : String
  kind : String
deriving Repr, DecidableEq

structure Reference where
  pdf_sha1 : String
  page_index : Nat
deriving Repr, DecidableEq

structure AnswerRecord where
  question_text : String
  value : String
  references : List Reference
deriving Repr, DecidableEq

/-- The external collaborators of the pipeline. -/
structure Env where
  nameOracle : String → Option String
  pdfExists : String → Bool
  pdfPages : String → List String
  oracle : Oracle

/-- The in-memory state built by `PDFQuestionAnswerer.__init__`. -/
structure Answerer where
  company_to_sha1 : List (String × String)
  sha1_to_meta : List (String × Meta)

/-- The unresolved record `{"question_text": ..., "value": "N/A",
"references": []}`. -/
def naRecord (question_text : String) : AnswerRecord :=
  ⟨question_text, "N/A", []⟩

/-- The metadata short-circuit condition for one topic: phrase in the
lowercased question, flag absent or false, boolean kind, `"did"` in the
lowercased question (the source nests the last two in an inner `if` with no
`else`, which is equivalent to this conjunction). -/
def shortCircuitHit (ql kind : String) (phrase : String)
    (flag : Option Bool) : Bool :=
  strContains ql phrase && !(flag.getD false) && kind == "boolean" &&
    strContains ql "did"

/-- The record returned by a firing short-circuit. -/
def shortCircuitRecord (question_text sha1 : String) : AnswerRecord :=
  ⟨question_text, "False", [⟨sha1, 0⟩]⟩

/-- The tail of `process_question` after the metadata short-circuits: build
`priority_pages`, run the two passes, assemble the record (a reference is
emitted only when the page sentinel was replaced). -/
def scanPhase (env : Env) (qd : Question) (sha1 : String)
    (pages : List String) (n : Nat) : AnswerRecord × Nat :=
  let priority := prioritizePages (pyLower qd.text) pages
  let out := selectAnswerTr env.oracle qd.text qd.kind pages priority n
  let st := out.1
  let references : List Reference :=
    if 0 ≤ st.best_page_idx then [⟨sha1, st.best_page_idx.toNat⟩] else []
  (⟨qd.text, st.best_answer, references⟩, out.2.1)

/-- `process_question`, returning the answer record and the next
answering-oracle call index (so `(result).2 - n` is the number of answering
oracle calls the question made). -/
def process_question (env : Env) (a : Answerer) (qd : Question) (n : Nat) :
    AnswerRecord × Nat :=
  match extract_company_name env.nameOracle qd.text with
  | none => (naRecord qd.text, n)
  | some company_name =>
    if company_name = "" then (naRecord qd.text, n)
    else
      match find_pdf_for_company a.company_to_sha1 company_name with
      | none => (naRecord qd.text, n)
      | some sha1 =>
        if sha1 = "" then (naRecord qd.text, n)
        else if !env.pdfExists sha1 then (naRecord qd.text, n)
        else
          let pages := env.pdfPages sha1
          if pages = [] then (naRecord qd.text, n)
          else
            let meta := (dictGet sha1 a.sha1_to_meta).getD emptyMeta
            let ql := pyLower qd.text
            if shortCircuitHit ql qd.kind "share buyback"
                meta.has_share_buyback_plans then
              (shortCircuitRecord qd.text sha1, n)
            else if shortCircuitHit ql qd.kind "dividend policy"
                meta.has_dividend_policy_changes then
              (shortCircuitRecord qd.text sha1, n)
            else if shortCircuitHit ql qd.kind "mergers"
                meta.mentions_recent_mergers_and_acquisitions then
              (shortCircuitRecord qd.text sha1, n)
            else scanPhase env qd sha1 pages n

/-- `process_all_questions`: all questions in input order, the oracle call
index threaded across questions (the inter-question sleep has no observable
effect in this model). -/
def process_all_questions (env : Env) (a : Answerer)
    (questions : List Question) : List AnswerRecord :=
  (questions.foldl
    (fun (acc : List AnswerRecord × Nat) qd =>
      let r := process_question env a qd acc.2
      (acc.1 ++ [r.1], r.2))
    ([], 0)).1

/-- Outcome of one invocation of `main` after the input files loaded:
the process exit code and the written output, `none` when no output file was
written. -/
structure RunResult where
  exitCode : Nat
  output : Option (List AnswerRecord)
deriving Repr, DecidableEq

/-- The question-processing part of `main` (everything after the answerer is
constructed).  On an out-of-bounds `--single-question` index the source logs
an error and `return`s from `main`, so the Python process terminates
normally: exit code 0 and no output file. -/
def mainRun (env : Env) (a : Answerer) (questions : List Question)
    (singleQuestion : Option Int) : RunResult :=
  match singleQuestion with
  | some i =>
    if i < 0 ∨ (questions.length : Int) ≤ i then ⟨0, none⟩
    else
      let qd := questions.getD i.toNat ⟨"", ""⟩
      ⟨0, some [(process_question env a qd 0).1]⟩
  | none => ⟨0, some (process_all_questions env a questions)⟩

/-! ### Definitions used only by the theorem statements -/

/-- `foldr max 0`: the largest element of a list of naturals (0 if empty). -/
def listMaxNat (l : List Nat) : Nat := l.foldr max 0

/-- The fuzzy resolver as the specification words it, for comparison with the
source's loop: score every indexed name by the size of the intersection of
the lowercase word sets of query and indexed name; return the id of the first
indexed name (in index insertion order) attaining the strictly largest score,
or `none` when the best score is 0. -/
def fuzzySpec (query : String) (index : List (String × String)) :
    Option String :=
  let score := fun (e : String × String) => overlapScore (pyLower query) (pyLower e.1)
  let best := listMaxNat (index.map score)
  if best = 0 then none
  else (index.find? (fun e => score e = best)).map (fun e => e.2)

/-- How many of the three keyword clusters fire for this page: a cluster
fires when one of its keywords occurs in the page and its topic cue occurs in
the question. -/
def numClusterHits (ql page : String) : Nat :=
  (if clusterHit financial_keywords "financial" ql (pyLower page) then 1 else 0) +
  (if clusterHit leadership_keywords "leadership" ql (pyLower page) then 1 else 0) +
  (if clusterHit risk_keywords "risk" ql (pyLower page) then 1 else 0)

/-- The first entry of a trace of batch answers that is not the `"N/A"`
sentinel, or `"N/A"` when there is none. -/
def firstNonNA (l : List String) : String :=
  (l.find? (fun a => a ≠ "N/A")).getD "N/A"

/-- The invariant tying `best_answer` to `best_confidence` in every state the
selection loops can reach: either nothing was accepted yet, or the accepted
answer carries the constant success confidence. -/
def ConfInv (st : SelState) : Prop :=
  (st.best_answer = "N/A" ∧ st.best_confidence = 0) ∨
  (st.best_answer ≠ "N/A" ∧ st.best_confidence = mkRat 9 10)

/-! ### Concrete scenario constants used by witnesses and counterexamples -/

/-- Environment whose collaborators all fail / find nothing. -/
def envStub : Env :=
  ⟨fun _ => none, fun _ => false, fun _ => [], fun _ _ _ _ => none⟩

def ansStub : Answerer := ⟨[], []⟩

/-- Scenario for C10: one page matching the financial cluster; the batch
query answers `"42"` but the single-page re-query answers differently, so the
page sentinel is never replaced. -/
def envC10 : Env :=
  ⟨fun _ => none, fun _ => true, fun _ => ["financial statements x"],
   fun n _ _ _ => if n = 0 then some "42" else some "different"⟩

def ansC10 : Answerer := ⟨[("acme", "s1")], []⟩

def qC10 : Question := ⟨"For Acme, financial?", "number"⟩

/-- The specification's short-circuit scenario: Acme Corp with
`has_share_buyback_plans: false`. -/
def metaAcme : Meta := ⟨"Acme Corp", "abc123", some false, none, none⟩

def envAcme : Env :=
  ⟨fun _ => none, fun _ => true, fun _ => ["some page"],
   fun _ _ _ _ => some "True"⟩

def ansAcme : Answerer :=
  ⟨buildCompanyIndex [metaAcme], buildMetaIndex [metaAcme]⟩

def qAcme : Question := ⟨"Did Acme Corp announce a share buyback plan?", "boolean"⟩

/-- Scenario for the C6 witness: page 0 matches both the financial and the
risk cluster, so its index is emitted twice. -/
def qlC6 : String := "for acme, financial and risk?"

def pagesC6 : List String :=
  ["financial statements and risks here", "nothing", "risks"]

/-- Scenario for the C4 witness: every oracle call fails. -/
def oracleFail : Oracle := fun _ _ _ _ => none

/-! ## Helper lemmas about the dictionary model -/

theorem dictGet_dictInsert_self (k : String) (v : β) (d : List (String × β)) :
    dictGet k (dictInsert k v d) = some v := by
  induction d with
  | nil => simp [dictInsert, dictGet]
  | cons e rest ih =>
    by_cases h : e.1 = k <;> simp [dictInsert, dictGet, h, ih]

theorem dictGet_dictInsert_ne (k k' : String) (v : β) (d : List (String × β))
    (h : k ≠ k') : dictGet k (dictInsert k' v d) = dictGet k d := by
  induction d with
  | nil => simp [dictInsert, dictGet, Ne.symm h]
  | cons e rest ih =>
    obtain ⟨ek, ev⟩ := e
    by_cases he : ek = k'
    · subst he
      simp [dictInsert, dictGet, Ne.symm h]
    · simp [dictInsert, dictGet, he, ih]

/-- Inserting records none of whose keys is `k` does not change the binding
of `k`. -/
theorem dictGet_buildCompanyIndex_skip (k : String) :
    ∀ (metas : List Meta) (d : List (String × String)),
    k ∉ metas.map (fun x => (pyLower x.company_name)) →
    dictGet k (metas.foldl
      (fun d m => dictInsert (pyLower m.company_name) m.sha1 d) d) = dictGet k d := by
  intro metas
  induction metas with
  | nil => intro d _; rfl
  | cons m rest ih =>
    intro d hk
    simp only [List.map_cons, List.mem_cons, not_or] at hk
    rw [List.foldl_cons, ih _ hk.2, dictGet_dictInsert_ne _ _ _ _ hk.1]

/-- With pairwise distinct lowercased names, the index binds each record's
lowercased name to that record's id. -/
theorem dictGet_buildCompanyIndex (m : Meta) :
    ∀ (metas : List Meta) (d : List (String × String)), m ∈ metas →
    (metas.map (fun x => (pyLower x.company_name))).Nodup →
    dictGet (pyLower m.company_name) (metas.foldl
      (fun d m => dictInsert (pyLower m.company_name) m.sha1 d) d) = some m.sha1 := by
  intro metas
  induction metas with
  | nil => intro d h; exact absurd h (List.not_mem_nil m)
  | cons m' rest ih =>
    intro d hm hnd
    simp only [List.map_cons, List.nodup_cons] at hnd
    rcases List.mem_cons.mp hm with rfl | hm'
    · rw [List.foldl_cons, dictGet_buildCompanyIndex_skip _ _ _ hnd.1,
        dictGet_dictInsert_self]
    · exact ih _ hm' hnd.2

/-- C8: resolving a loaded record's exact company name in any letter casing
returns that record's document id, provided the lowercased company names in
the metadata are pairwise distinct (the dictionary build is last-writer-wins
on a duplicated lowercased name, so a duplicated record could be shadowed). -/
theorem claim_C8 (metas : List Meta) (m : Meta) (query : String)
    (hm : m ∈ metas)
    (hnodup : (metas.map (fun x => (pyLower x.company_name))).Nodup)
    (hq : pyLower query = pyLower m.company_name) :
    find_pdf_for_company (buildCompanyIndex metas) query = some m.sha1 := by
  have h := dictGet_buildCompanyIndex m metas [] hm hnodup
  simp only [find_pdf_for_company, buildCompanyIndex, hq, h]

theorem claim_C8_witness :
    find_pdf_for_company (buildCompanyIndex [⟨"Acme Corp", "abc123", none, none, none⟩])
      "ACME CORP" = some "abc123" :=
  claim_C8 [⟨"Acme Corp", "abc123", none, none, none⟩]
    ⟨"Acme Corp", "abc123", none, none, none⟩ "ACME CORP"
    (by decide) (by decide) (by decide)

/-! ## Helper lemmas about fuzzy matching -/

theorem find?_congr_mem {p q : α → Bool} :
    ∀ (l : List α), (∀ a ∈ l, p a = q a) → l.find? p = l.find? q := by
  intro l
  induction l with
  | nil => intro _; rfl
  | cons a rest ih =>
    intro h
    have ha := h a (List.mem_cons_self a rest)
    by_cases hp : p a = true
    · rw [List.find?_cons_of_pos _ hp, List.find?_cons_of_pos _ (ha ▸ hp)]
    · rw [List.find?_cons_of_neg _ hp, List.find?_cons_of_neg _ (ha ▸ hp),
        ih (fun x hx => h x (List.mem_cons_of_mem a hx))]

/-- The fuzzy scan of `find_pdf_for_company`, characterized: starting from a
current best score `s`, the loop returns the second component of the first
entry whose score equals the maximum score of the list, provided that
maximum strictly exceeds `s`; otherwise it keeps the incoming best. -/
theorem fuzzyBest_eq (cl : String) :
    ∀ (l : List (String × String)) (s : Nat) (b : Option String),
    fuzzyBest cl l s b =
      if s < listMaxNat (l.map (fun e => overlapScore cl e.1)) then
        (l.find? (fun e =>
          overlapScore cl e.1 =
            listMaxNat (l.map (fun e => overlapScore cl e.1)))).map
          (fun e => e.2)
      else b := by
  intro l
  induction l with
  | nil =>
    intro s b
    simp [fuzzyBest, listMaxNat]
  | cons e rest ih =>
    intro s b
    obtain ⟨nm, sh⟩ := e
    have hmax : listMaxNat (((nm, sh) :: rest).map (fun e => overlapScore cl e.1)) =
        max (overlapScore cl nm)
          (listMaxNat (rest.map (fun e => overlapScore cl e.1))) := rfl
    rw [hmax]
    show (if s < overlapScore cl nm then
        fuzzyBest cl rest (overlapScore cl nm) (some sh)
      else fuzzyBest cl rest s b) = _
    set ov := overlapScore cl nm with hov
    set M := listMaxNat (rest.map (fun e => overlapScore cl e.1)) with hM
    by_cases h1 : s < ov
    · by_cases h2 : ov < M
      · have e1 : max ov M = M := by omega
        have e2 : s < M := by omega
        rw [if_pos h1, ih, e1, if_pos h2, if_pos e2,
          List.find?_cons_of_neg _ (by simp; omega)]
      · have e1 : max ov M = ov := by omega
        rw [if_pos h1, ih, e1, if_neg h2, if_pos h1,
          List.find?_cons_of_pos _ (by simp)]
        rfl
    · by_cases h2 : s < M
      · have e1 : max ov M = M := by omega
        rw [if_neg h1, ih, e1, if_pos h2, if_pos h2,
          List.find?_cons_of_neg _ (by simp; omega)]
      · have e2 : ¬ (s < max ov M) := by omega
        rw [if_neg h1, ih, if_neg h2, if_neg e2]

/-- C3: on a query with no exact (case-insensitive) match, the fuzzy
resolver returns the id of the first-encountered indexed name attaining the
strictly largest lowercase word-overlap score with the query, and `none` when
the best score is 0 — exactly the specification's `fuzzySpec`.  Indexed names
are stored lowercased by `__init__`, which the hypothesis `hlower` records.
Determinism is the second conjunct (the resolver is a pure function of index
state and query). -/
theorem claim_C3 (index : List (String × String)) (query : String)
    (hlower : ∀ e ∈ index, pyLower e.1 = e.1)
    (hexact : dictGet (pyLower query) index = none) :
    find_pdf_for_company index query = fuzzySpec query index ∧
      find_pdf_for_company index query = find_pdf_for_company index query := by
  refine ⟨?_, rfl⟩
  have h1 : find_pdf_for_company index query =
      fuzzyBest (pyLower query) index 0 none := by
    simp only [find_pdf_for_company, hexact]
  have hscore : ∀ e ∈ index,
      overlapScore (pyLower query) (pyLower e.1) =
        overlapScore (pyLower query) e.1 := by
    intro e he; rw [hlower e he]
  have hmap : index.map (fun e => overlapScore (pyLower query) (pyLower e.1)) =
      index.map (fun e => overlapScore (pyLower query) e.1) :=
    List.map_congr_left hscore
  rw [h1, fuzzyBest_eq]
  simp only [fuzzySpec, hmap]
  rcases Nat.eq_zero_or_pos
      (listMaxNat (index.map (fun e => overlapScore (pyLower query) e.1))) with h0 | h0
  · rw [h0]
    simp
  · rw [if_pos h0, if_neg (by omega)]
    congr 1
    apply find?_congr_mem
    intro a ha
    simp [hscore a ha]

theorem claim_C3_witness :
    find_pdf_for_company [("acme corp", "s1"), ("beta corp", "s2")] "Corp Holdings" =
      fuzzySpec "Corp Holdings" [("acme corp", "s1"), ("beta corp", "s2")] ∧
    find_pdf_for_company [("acme corp", "s1"), ("beta corp", "s2")] "Corp Holdings" =
      find_pdf_for_company [("acme corp", "s1"), ("beta corp", "s2")] "Corp Holdings" :=
  claim_C3 [("acme corp", "s1"), ("beta corp", "s2")] "Corp Holdings"
    (by decide) (by decide)

/-! ## The extraction rules: first matching pattern wins -/

theorem firstPatternMatch_spec :
    ∀ (l : List Pat) (q : String) (i : Nat) (hi : i < l.length) (g : String),
    runPat (l.get ⟨i, hi⟩) q = some g →
    (∀ (j : Nat) (hj : j < i), runPat (l.get ⟨j, Nat.lt_trans hj hi⟩) q = none) →
    firstPatternMatch l q = some g := by
  intro l
  induction l with
  | nil => intro q i hi; exact absurd hi (by simp)
  | cons p rest ih =>
    intro q i hi g hmatch hfirst
    cases i with
    | zero =>
      simp only [List.get] at hmatch
      simp [firstPatternMatch, hmatch]
    | succ k =>
      have h0 : runPat p q = none := hfirst 0 (Nat.succ_pos k)
      simp only [firstPatternMatch, h0]
      exact ih q k (Nat.lt_of_succ_lt_succ hi) g hmatch
        (fun j hj => hfirst (j + 1) (Nat.succ_lt_succ hj))

/-- C5: when the `i`-th pattern (in the fixed source order) matches and no
earlier pattern does, `extract_company_name` returns exactly the stripped
captured group of that pattern, and the oracle fallback is not consulted (the
result is the same under any two fallback oracles). -/
theorem claim_C5 (q : String) (o₁ o₂ : String → Option String)
    (i : Nat) (hi : i < patterns.length) (g : String)
    (hmatch : runPat (patterns.get ⟨i, hi⟩) q = some g)
    (hfirst : ∀ (j : Nat) (hj : j < i),
      runPat (patterns.get ⟨j, Nat.lt_trans hj hi⟩) q = none) :
    extract_company_name o₁ q = some (pyTrim g) ∧
      extract_company_name o₁ q = extract_company_name o₂ q := by
  have h := firstPatternMatch_spec patterns q i hi g hmatch hfirst
  constructor <;> simp [extract_company_name, h]

theorem claim_C5_witness :
    extract_company_name (fun _ => none) "For Acme Corp, what was the revenue?" =
      some (pyTrim "Acme Corp") ∧
    extract_company_name (fun _ => none) "For Acme Corp, what was the revenue?" =
      extract_company_name (fun _ => some "Other Co")
        "For Acme Corp, what was the revenue?" :=
  claim_C5 "For Acme Corp, what was the revenue?" (fun _ => none)
    (fun _ => some "Other Co") 0 (by decide) "Acme Corp" (by decide)
    (fun j hj => absurd hj (Nat.not_lt_zero j))

/-! ## The page prioritizer -/

theorem pageHits_mem (ql : String) (e : Nat × String) :
    ∀ j ∈ pageHits ql e, j = e.1 := by
  intro j hj
  simp only [pageHits] at hj
  split_ifs at hj <;> simp_all

theorem pageHits_length (ql : String) (i : Nat) (p : String) :
    (pageHits ql (i, p)).length = numClusterHits ql p := by
  simp only [pageHits, numClusterHits]
  split_ifs <;> simp_all

theorem flatMap_pageHits_lb (ql : String) :
    ∀ (l : List String) (k x : Nat),
    x ∈ (List.enumFrom k l).flatMap (pageHits ql) → k ≤ x := by
  intro l
  induction l with
  | nil => intro k x h; simp at h
  | cons p ps ih =>
    intro k x h
    rw [show List.enumFrom k (p :: ps) = (k, p) :: List.enumFrom (k + 1) ps
      from rfl, List.flatMap_cons] at h
    rcases List.mem_append.mp h with h | h
    · have := pageHits_mem ql (k, p) x h
      omega
    · have := ih (k + 1) x h
      omega

theorem flatMap_pageHits_ub (ql : String) :
    ∀ (l : List String) (k x : Nat),
    x ∈ (List.enumFrom k l).flatMap (pageHits ql) → x < k + l.length := by
  intro l
  induction l with
  | nil => intro k x h; simp at h
  | cons p ps ih =>
    intro k x h
    rw [show List.enumFrom k (p :: ps) = (k, p) :: List.enumFrom (k + 1) ps
      from rfl, List.flatMap_cons] at h
    rcases List.mem_append.mp h with h | h
    · have := pageHits_mem ql (k, p) x h
      simp only [List.length_cons]
      omega
    · have := ih (k + 1) x h
      simp only [List.length_cons]
      omega

theorem flatMap_pageHits_pairwise (ql : String) :
    ∀ (l : List String) (k : Nat),
    ((List.enumFrom k l).flatMap (pageHits ql)).Pairwise (· ≤ ·) := by
  intro l
  induction l with
  | nil => intro k; simp
  | cons p ps ih =>
    intro k
    rw [show List.enumFrom k (p :: ps) = (k, p) :: List.enumFrom (k + 1) ps
      from rfl, List.flatMap_cons, List.pairwise_append]
    refine ⟨?_, ih (k + 1), ?_⟩
    · apply List.pairwise_of_forall_mem_list
      intro a ha b hb
      have h1 := pageHits_mem ql (k, p) a ha
      have h2 := pageHits_mem ql (k, p) b hb
      omega
    · intro a ha b hb
      have h1 := pageHits_mem ql (k, p) a ha
      have h2 := flatMap_pageHits_lb ql ps (k + 1) b hb
      omega

theorem flatMap_pageHits_count (ql : String) :
    ∀ (l : List String) (k i : Nat),
    1 < ((List.enumFrom k l).flatMap (pageHits ql)).count i →
    ∃ p, (i, p) ∈ List.enumFrom k l ∧ 1 < (pageHits ql (i, p)).length := by
  intro l
  induction l with
  | nil => intro k i h; simp [List.count] at h
  | cons p ps ih =>
    intro k i h
    rw [show List.enumFrom k (p :: ps) = (k, p) :: List.enumFrom (k + 1) ps
      from rfl, List.flatMap_cons, List.count_append] at h
    by_cases hik : i = k
    · subst hik
      have hr : ((List.enumFrom (i + 1) ps).flatMap (pageHits ql)).count i = 0 := by
        rw [List.count_eq_zero]
        intro hmem
        have := flatMap_pageHits_lb ql ps (i + 1) i hmem
        omega
      have hc : (pageHits ql (i, p)).count i = (pageHits ql (i, p)).length := by
        apply List.count_eq_length.mpr
        intro a ha
        exact (pageHits_mem ql (i, p) a ha).symm
      refine ⟨p, List.mem_cons_self _ _, ?_⟩
      omega
    · have hh : (pageHits ql (k, p)).count i = 0 := by
        rw [List.count_eq_zero]
        intro hmem
        exact hik (pageHits_mem ql (k, p) i hmem)
      obtain ⟨p', hp', hl⟩ := ih (k + 1) i (by omega)
      exact ⟨p', List.mem_cons_of_mem _ hp', hl⟩

/-- C6: every index emitted by the page prioritizer is a valid page index;
the emitted list is in non-decreasing natural page order; and an index can
occur more than once only when its page matches more than one keyword
cluster whose topic cue also occurs in the question text. -/
theorem claim_C6 (ql : String) (pages : List String) :
    (∀ i ∈ prioritizePages ql pages, i < pages.length) ∧
    (prioritizePages ql pages).Pairwise (· ≤ ·) ∧
    (∀ i : Nat, 1 < (prioritizePages ql pages).count i →
      ∃ p, (i, p) ∈ pages.enum ∧ 1 < numClusterHits ql p) := by
  refine ⟨?_, ?_, ?_⟩
  · intro i hi
    have := flatMap_pageHits_ub ql pages 0 i hi
    omega
  · exact flatMap_pageHits_pairwise ql pages 0
  · intro i h
    obtain ⟨p, hp, hl⟩ := flatMap_pageHits_count ql pages 0 i h
    exact ⟨p, hp, (pageHits_length ql i p) ▸ hl⟩

theorem claim_C6_witness :
    (0 ∈ prioritizePages qlC6 pagesC6 → 0 < pagesC6.length) ∧
    (∃ p, (0, p) ∈ pagesC6.enum ∧ 1 < numClusterHits qlC6 p) :=
  ⟨fun h => (claim_C6 qlC6 pagesC6).1 0 h,
   (claim_C6 qlC6 pagesC6).2.2 0 (by decide)⟩

/-! ## Oracle failures -/

/-- C4: a failing oracle call makes `answer_question_with_llm` return the
`"N/A"` sentinel with confidence 0; a batch whose query fails changes none
of best answer, best confidence and best page index (only the call counter
and the trace advance); and a failing single-page re-query inside the
localization loop is skipped without touching the page choice. -/
theorem claim_C4 (o : Oracle) (n : Nat) (question context kind target : String)
    (chunk : List (Nat × String)) (rest : List (List (Nat × String)))
    (st : SelState) (idx : Nat) (pg : String) (lrest : List (Nat × String))
    (cur : Int) :
    (o n question context kind = none →
      answer_question_with_llm o n question context kind = (("N/A", 0), n + 1)) ∧
    (o n question (batchContext chunk) kind = none →
      runBatches o question kind (chunk :: rest) st n =
        ((runBatches o question kind rest st (n + 1)).1,
         (runBatches o question kind rest st (n + 1)).2.1,
         "N/A" :: (runBatches o question kind rest st (n + 1)).2.2)) ∧
    (o n question pg kind = none → target ≠ "N/A" →
      localizePage o question kind target ((idx, pg) :: lrest) n cur =
        localizePage o question kind target lrest (n + 1) cur) := by
  refine ⟨?_, ?_, ?_⟩
  · intro h
    simp [answer_question_with_llm, h]
  · intro h
    have ha : answer_question_with_llm o n question (batchContext chunk) kind =
        (("N/A", 0), n + 1) := by simp [answer_question_with_llm, h]
    simp only [runBatches, ha]
    have hcond : ¬ (st.best_confidence < (0 : ℚ) ∧ ("N/A" : String) ≠ "N/A") := by
      simp
    rw [if_neg hcond]
  · intro h hne
    have ha : answer_question_with_llm o n question pg kind =
        (("N/A", 0), n + 1) := by simp [answer_question_with_llm, h]
    simp only [localizePage, ha]
    rw [if_neg (Ne.symm hne)]

theorem claim_C4_witness :
    (answer_question_with_llm oracleFail 0 "q" "ctx" "number" = (("N/A", 0), 1)) ∧
    (runBatches oracleFail "q" "number" [[(0, "pg")]] initialSelState 0 =
      ((runBatches oracleFail "q" "number" [] initialSelState 1).1,
       (runBatches oracleFail "q" "number" [] initialSelState 1).2.1,
       "N/A" :: (runBatches oracleFail "q" "number" [] initialSelState 1).2.2)) ∧
    (localizePage oracleFail "q" "number" "42" [(0, "pg")] 0 (-1) =
      localizePage oracleFail "q" "number" "42" [] 1 (-1)) :=
  claim_C4 oracleFail 0 "q" "ctx" "number" "42" [(0, "pg")] [] initialSelState
    0 "pg" [] (-1)
    |>.imp (fun f => f rfl) (fun h => h.imp (fun f => f rfl)
      (fun f => f rfl (by decide)))

/-! ## The selection loops: first accepted batch wins -/

theorem find?_append_none {p : α → Bool} :
    ∀ (l l2 : List α), l.find? p = none → (l ++ l2).find? p = l2.find? p := by
  intro l
  induction l with
  | nil => simp
  | cons a rest ih =>
    intro l2 h
    by_cases hp : p a = true
    · rw [List.find?_cons_of_pos _ hp] at h
      exact absurd h (by simp)
    · rw [List.find?_cons_of_neg _ hp] at h
      rw [List.cons_append, List.find?_cons_of_neg _ hp]
      exact ih l2 h

theorem find?_nonNA_eq_none (l : List String) (h : firstNonNA l = "N/A") :
    l.find? (fun a => a ≠ "N/A") = none := by
  rcases hf : l.find? (fun a => a ≠ "N/A") with _ | a
  · rfl
  · have ha := List.find?_some hf
    rw [firstNonNA, hf] at h
    simp at h ha
    exact absurd h ha

theorem firstNonNA_append_of_na (l l2 : List String)
    (h : firstNonNA l = "N/A") : firstNonNA (l ++ l2) = firstNonNA l2 := by
  rw [firstNonNA, firstNonNA, find?_append_none l l2 (find?_nonNA_eq_none l h)]

/-- The two key facts about one batch loop: the confidence invariant is
preserved; a state holding a non-`"N/A"` best answer is never changed again
(every later call has confidence 0.9, never strictly above it); and starting
from the `"N/A"` state the final best answer is the first batch-level answer
in the trace that is not `"N/A"`. -/
theorem runBatches_char (o : Oracle) (question kind : String) :
    ∀ (chunks : List (List (Nat × String))) (st : SelState) (n : Nat),
    ConfInv st →
    ConfInv (runBatches o question kind chunks st n).1 ∧
    (st.best_answer ≠ "N/A" → (runBatches o question kind chunks st n).1 = st) ∧
    (st.best_answer = "N/A" →
      (runBatches o question kind chunks st n).1.best_answer =
        firstNonNA (runBatches o question kind chunks st n).2.2) := by
  intro chunks
  induction chunks with
  | nil =>
    intro st n hinv
    exact ⟨hinv, fun _ => rfl, fun h => by simp [runBatches, firstNonNA, h]⟩
  | cons chunk rest ih =>
    intro st n hinv
    rcases hO : o n question (batchContext chunk) kind with _ | reply
    · have ha : answer_question_with_llm o n question (batchContext chunk) kind
          = (("N/A", 0), n + 1) := by simp [answer_question_with_llm, hO]
      have hcond : ¬ (st.best_confidence < (0 : ℚ) ∧ ("N/A" : String) ≠ "N/A") := by
        simp
      simp only [runBatches, ha, if_neg hcond]
      obtain ⟨i1, i2, i3⟩ := ih st (n + 1) hinv
      refine ⟨i1, i2, fun h => ?_⟩
      rw [i3 h]
      simp [firstNonNA]
    · have ha : answer_question_with_llm o n question (batchContext chunk) kind
          = ((pyTrim reply, mkRat 9 10), n + 1) := by
        simp [answer_question_with_llm, hO]
      rcases hinv with ⟨hNA, hc0⟩ | ⟨hnNA, hc9⟩
      · by_cases hans : pyTrim reply = "N/A"
        · have hcond : ¬ (st.best_confidence < (mkRat 9 10 : ℚ) ∧
              pyTrim reply ≠ "N/A") := by simp [hans]
          simp only [runBatches, ha, if_neg hcond]
          obtain ⟨i1, i2, i3⟩ := ih st (n + 1) (Or.inl ⟨hNA, hc0⟩)
          refine ⟨i1, i2, fun h => ?_⟩
          rw [i3 h]
          simp [firstNonNA, hans]
        · have hcond : st.best_confidence < (mkRat 9 10 : ℚ) ∧
              pyTrim reply ≠ "N/A" := by
            refine ⟨?_, hans⟩
            rw [hc0]
            norm_num
          simp only [runBatches, ha, if_pos hcond]
          obtain ⟨i1, i2, i3⟩ := ih
            ⟨pyTrim reply, mkRat 9 10,
              (localizePage o question kind (pyTrim reply) chunk (n + 1)
                st.best_page_idx).1⟩
            (localizePage o question kind (pyTrim reply) chunk (n + 1)
              st.best_page_idx).2
            (Or.inr ⟨hans, rfl⟩)
          have heq := i2 hans
          refine ⟨i1, fun h => absurd hNA h, fun _ => ?_⟩
          rw [heq]
          simp [firstNonNA, List.find?_cons, hans]
      · have hcond : ¬ (st.best_confidence < (mkRat 9 10 : ℚ) ∧
            pyTrim reply ≠ "N/A") := by
          rw [hc9]
          simp
        simp only [runBatches, ha, if_neg hcond]
        obtain ⟨i1, i2, i3⟩ := ih st (n + 1) (Or.inr ⟨hnNA, hc9⟩)
        exact ⟨i1, i2, fun h => absurd h hnNA⟩

/-- C9: every successful oracle call returns the constant confidence 0.9 and
a batch is accepted only on strictly larger confidence, so a non-`"N/A"`
best answer is never replaced (first conjunct); consequently the final value
of the selection phase is the batch answer of the first batch, priority
batches first, whose (trimmed) oracle reply is not `"N/A"` — `"N/A"` when
there is none (second conjunct). -/
theorem claim_C9 (o : Oracle) (question kind : String) (pages : List String)
    (priority : List Nat) (n : Nat) :
    (∀ (st : SelState) (chunks : List (List (Nat × String))) (m : Nat),
      st.best_answer ≠ "N/A" → st.best_confidence = mkRat 9 10 →
      (runBatches o question kind chunks st m).1.best_answer =
        st.best_answer) ∧
    (selectAnswerTr o question kind pages priority n).1.best_answer =
      firstNonNA ((selectAnswerTr o question kind pages priority n).2.2.1 ++
        (selectAnswerTr o question kind pages priority n).2.2.2) := by
  constructor
  · intro st chunks m hne hc
    rw [(runBatches_char o question kind chunks st m (Or.inr ⟨hne, hc⟩)).2.1 hne]
  · obtain ⟨p1, p2, p3⟩ := runBatches_char o question kind
      (priorityBatches priority pages) initialSelState n (Or.inl ⟨rfl, rfl⟩)
    have hpr := p3 rfl
    simp only [selectAnswerTr]
    by_cases h1 : (runBatches o question kind (priorityBatches priority pages)
        initialSelState n).1.best_answer = "N/A"
    · obtain ⟨r1, r2, r3⟩ := runBatches_char o question kind
        (remainingBatches priority pages)
        (runBatches o question kind (priorityBatches priority pages)
          initialSelState n).1
        (runBatches o question kind (priorityBatches priority pages)
          initialSelState n).2.1 p1
      have hprNA : firstNonNA (runBatches o question kind
          (priorityBatches priority pages) initialSelState n).2.2 = "N/A" := by
        rw [← hpr, h1]
      rw [if_pos h1]
      simpa [firstNonNA_append_of_na _ _ hprNA] using r3 h1
    · rw [if_neg h1]
      simpa using hpr

theorem claim_C9_witness :
    (runBatches (fun _ _ _ _ => some "7") "q" "number" [[(0, "x")]]
      ⟨"42", mkRat 9 10, -1⟩ 0).1.best_answer = "42" :=
  (claim_C9 (fun _ _ _ _ => some "7") "q" "number" [] [] 0).1
    ⟨"42", mkRat 9 10, -1⟩ [[(0, "x")]] 0 (by decide) rfl

/-! ## Reference validity -/

theorem chunksOf5Aux_congr :
    ∀ (n m : Nat) (l : List α), l.length ≤ n → l.length ≤ m →
    chunksOf5Aux n l = chunksOf5Aux m l := by
  intro n
  induction n with
  | zero =>
    intro m l hn _
    have : l = [] := List.eq_nil_of_length_eq_zero (Nat.le_zero.mp hn)
    subst this
    cases m <;> rfl
  | succ n ih =>
    intro m l hn hm
    match l with
    | [] => cases m <;> rfl
    | x :: xs =>
      match m with
      | 0 => exact absurd hm (by simp)
      | m + 1 =>
        simp only [chunksOf5Aux]
        congr 1
        apply ih
        · simp only [List.length_drop]
          simp only [List.length_cons] at hn
          omega
        · simp only [List.length_drop]
          simp only [List.length_cons] at hm
          omega

theorem chunksOf5_cons (x : α) (xs : List α) :
    chunksOf5 (x :: xs) = (x :: xs.take 4) :: chunksOf5 (xs.drop 4) := by
  show chunksOf5Aux (xs.length + 1) (x :: xs) = _
  simp only [chunksOf5Aux]
  congr 1
  apply chunksOf5Aux_congr
  · simp only [List.length_drop]
    omega
  · exact le_refl _

theorem mem_chunksOf5_aux :
    ∀ (n : Nat) (l : List α), l.length ≤ n →
    ∀ c ∈ chunksOf5 l, ∀ a ∈ c, a ∈ l := by
  intro n
  induction n with
  | zero =>
    intro l hl c hc a _
    have : l = [] := List.eq_nil_of_length_eq_zero (Nat.le_zero.mp hl)
    subst this
    simp [chunksOf5, chunksOf5Aux] at hc
  | succ n ih =>
    intro l hl c hc a ha
    match l with
    | [] => simp [chunksOf5, chunksOf5Aux] at hc
    | x :: xs =>
      rw [chunksOf5_cons] at hc
      rcases List.mem_cons.mp hc with rfl | hc'
      · rcases List.mem_cons.mp ha with rfl | ha'
        · exact List.mem_cons_self _ _
        · exact List.mem_cons_of_mem _ (List.mem_of_mem_take ha')
      · have hlen : (xs.drop 4).length ≤ n := by
          simp only [List.length_drop]
          simp only [List.length_cons] at hl
          omega
        exact List.mem_cons_of_mem _
          (List.mem_of_mem_drop (ih (xs.drop 4) hlen c hc' a ha))

theorem mem_chunksOf5 (l : List α) : ∀ c ∈ chunksOf5 l, ∀ a ∈ c, a ∈ l :=
  mem_chunksOf5_aux l.length l (le_refl _)

theorem mem_enumFrom_fst_lt :
    ∀ (l : List α) (k : Nat) (e : Nat × α),
    e ∈ List.enumFrom k l → e.1 < k + l.length := by
  intro l
  induction l with
  | nil => intro k e h; simp at h
  | cons x xs ih =>
    intro k e h
    rw [show List.enumFrom k (x :: xs) = (k, x) :: List.enumFrom (k + 1) xs
      from rfl] at h
    rcases List.mem_cons.mp h with rfl | h'
    · simp
    · have := ih (k + 1) e h'
      simp only [List.length_cons]
      omega

theorem localizePage_bound (o : Oracle) (question kind target : String)
    (L : Int) :
    ∀ (l : List (Nat × String)) (n : Nat) (cur : Int),
    (∀ e ∈ l, ((e.1 : Int)) < L) → -1 ≤ cur → cur < L →
    -1 ≤ (localizePage o question kind target l n cur).1 ∧
      (localizePage o question kind target l n cur).1 < L := by
  intro l
  induction l with
  | nil =>
    intro n cur _ h1 h2
    exact ⟨h1, h2⟩
  | cons e rest ih =>
    intro n cur hl h1 h2
    obtain ⟨idx, pg⟩ := e
    simp only [localizePage]
    by_cases hm : (answer_question_with_llm o n question pg kind).1.1 = target
    · rw [if_pos hm]
      refine ⟨by omega, ?_⟩
      exact hl (idx, pg) (List.mem_cons_self _ _)
    · rw [if_neg hm]
      exact ih _ cur (fun x hx => hl x (List.mem_cons_of_mem _ hx)) h1 h2

theorem runBatches_bound (o : Oracle) (question kind : String) (L : Int) :
    ∀ (chunks : List (List (Nat × String))) (st : SelState) (n : Nat),
    (∀ c ∈ chunks, ∀ e ∈ c, ((e.1 : Int)) < L) →
    -1 ≤ st.best_page_idx → st.best_page_idx < L →
    -1 ≤ (runBatches o question kind chunks st n).1.best_page_idx ∧
      (runBatches o question kind chunks st n).1.best_page_idx < L := by
  intro chunks
  induction chunks with
  | nil =>
    intro st n _ h1 h2
    exact ⟨h1, h2⟩
  | cons chunk rest ih =>
    intro st n hl h1 h2
    simp only [runBatches]
    by_cases hc : st.best_confidence <
        (answer_question_with_llm o n question (batchContext chunk) kind).1.2 ∧
        (answer_question_with_llm o n question (batchContext chunk) kind).1.1 ≠ "N/A"
    · rw [if_pos hc]
      have hloc := localizePage_bound o question kind
        (answer_question_with_llm o n question (batchContext chunk) kind).1.1 L
        chunk (answer_question_with_llm o n question (batchContext chunk) kind).2
        st.best_page_idx
        (fun e he => hl chunk (List.mem_cons_self _ _) e he) h1 h2
      exact ih _ _ (fun c hc' e he => hl c (List.mem_cons_of_mem _ hc') e he)
        hloc.1 hloc.2
    · rw [if_neg hc]
      exact ih st _ (fun c hc' e he => hl c (List.mem_cons_of_mem _ hc') e he)
        h1 h2

theorem selectAnswerTr_page_bound (o : Oracle) (question kind : String)
    (pages : List String) (priority : List Nat) (n : Nat)
    (hpr : ∀ i ∈ priority, i < pages.length) :
    -1 ≤ (selectAnswerTr o question kind pages priority n).1.best_page_idx ∧
      (selectAnswerTr o question kind pages priority n).1.best_page_idx <
        (pages.length : Int) := by
  have hPB : ∀ c ∈ priorityBatches priority pages, ∀ e ∈ c,
      ((e.1 : Int)) < (pages.length : Int) := by
    intro c hc e he
    simp only [priorityBatches, List.mem_map] at hc
    obtain ⟨b, hb, rfl⟩ := hc
    simp only [List.mem_map] at he
    obtain ⟨idx, hidx, rfl⟩ := he
    have hm : idx ∈ priority := mem_chunksOf5 priority b hb idx hidx
    exact_mod_cast hpr idx hm
  have hRB : ∀ c ∈ remainingBatches priority pages, ∀ e ∈ c,
      ((e.1 : Int)) < (pages.length : Int) := by
    intro c hc e he
    simp only [remainingBatches, List.mem_filter] at hc
    have hc' := mem_chunksOf5 pages.enum c hc.1 e he
    have hlt := mem_enumFrom_fst_lt pages 0 e hc'
    omega
  have hinit1 : (-1 : Int) ≤ initialSelState.best_page_idx := by
    simp [initialSelState]
  have hinit2 : initialSelState.best_page_idx < (pages.length : Int) := by
    simp only [initialSelState]
    omega
  have h1 := runBatches_bound o question kind (pages.length : Int)
    (priorityBatches priority pages) initialSelState n hPB hinit1 hinit2
  unfold selectAnswerTr
  by_cases hNA : (runBatches o question kind (priorityBatches priority pages)
      initialSelState n).1.best_answer = "N/A"
  · rw [if_pos hNA]
    exact runBatches_bound o question kind (pages.length : Int)
      (remainingBatches priority pages) _ _ hRB h1.1 h1.2
  · rw [if_neg hNA]
    exact h1

/-- C7: every record `process_question` returns has at most one reference,
and a non-empty references list points at a valid index of the resolved
document's extracted page sequence. -/
theorem claim_C7 (env : Env) (a : Answerer) (qd : Question) (n : Nat) :
    (process_question env a qd n).1.references.length ≤ 1 ∧
    ∀ r ∈ (process_question env a qd n).1.references,
      r.page_index < (env.pdfPages r.pdf_sha1).length := by
  unfold process_question
  cases hE : extract_company_name env.nameOracle qd.text with
  | none => simp [naRecord]
  | some name =>
    dsimp only
    by_cases h1 : name = ""
    · simp [h1, naRecord]
    · rw [if_neg h1]
      cases hF : find_pdf_for_company a.company_to_sha1 name with
      | none => simp [naRecord]
      | some sha1 =>
        dsimp only
        by_cases h2 : sha1 = ""
        · simp [h2, naRecord]
        · rw [if_neg h2]
          by_cases h3 : env.pdfExists sha1
          · rw [if_neg (by simp [h3])]
            by_cases h4 : env.pdfPages sha1 = []
            · rw [if_pos h4]
              simp [naRecord]
            · rw [if_neg h4]
              have hpos : 0 < (env.pdfPages sha1).length :=
                List.length_pos.mpr h4
              have hsc : ∀ s : String,
                  (shortCircuitRecord qd.text sha1).references.length ≤ 1 ∧
                  ∀ r ∈ (shortCircuitRecord qd.text sha1).references,
                    r.page_index < (env.pdfPages r.pdf_sha1).length := by
                intro _
                refine ⟨by simp [shortCircuitRecord], ?_⟩
                intro r hr
                simp only [shortCircuitRecord, List.mem_singleton] at hr
                subst hr
                simpa using hpos
              split_ifs with s1 s2 s3
              · exact hsc ""
              · exact hsc ""
              · exact hsc ""
              · -- scanPhase
                have hb := selectAnswerTr_page_bound env.oracle qd.text qd.kind
                  (env.pdfPages sha1)
                  (prioritizePages (pyLower qd.text) (env.pdfPages sha1)) n
                  (fun i hi => (claim_C6 (pyLower qd.text)
                    (env.pdfPages sha1)).1 i hi)
                simp only [scanPhase]
                by_cases h5 : (0 : Int) ≤ (selectAnswerTr env.oracle qd.text
                    qd.kind (env.pdfPages sha1)
                    (prioritizePages (pyLower qd.text) (env.pdfPages sha1))
                    n).1.best_page_idx
                · rw [if_pos h5]
                  refine ⟨by simp, ?_⟩
                  intro r hr
                  simp only [List.mem_singleton] at hr
                  subst hr
                  simp only []
                  omega
                · rw [if_neg h5]
                  simp
          · rw [if_pos (by simp [h3])]
            simp [naRecord]

theorem claim_C7_witness :
    (process_question envAcme ansAcme qAcme 0).1.references.length ≤ 1 ∧
    ∀ r ∈ (process_question envAcme ansAcme qAcme 0).1.references,
      r.page_index < (envAcme.pdfPages r.pdf_sha1).length := by
  have h := claim_C7 envAcme ansAcme qAcme 0
  exact ⟨h.1, fun r hr => h.2 r hr⟩

/-! ## The metadata short-circuit -/

theorem shortCircuitHit_true (ql kind phrase : String) (flag : Option Bool)
    (hc : strContains ql phrase = true) (hf : flag.getD false = false)
    (hk : kind = "boolean") (hd : strContains ql "did" = true) :
    shortCircuitHit ql kind phrase flag = true := by
  subst hk
  simp [shortCircuitHit, hc, hf, hd]

theorem shortCircuitHit_false_of_flag (ql kind phrase : String)
    (flag : Option Bool)
    (h : strContains ql phrase = true → flag.getD false = true) :
    shortCircuitHit ql kind phrase flag = false := by
  cases hc : strContains ql phrase with
  | false => simp [shortCircuitHit, hc]
  | true => simp [shortCircuitHit, hc, h hc]

/-- C1: whenever the pipeline has resolved a document with a non-empty page
extraction, the question has boolean kind and contains `"did"`
(case-insensitively), and the question contains a negative-topic phrase whose
corresponding metadata flag is false or absent, `process_question` returns
value `"False"` with the single reference `(sha1, page 0)` and makes no
answering-oracle call (the call index is returned unchanged).  Conversely,
when the flag corresponding to every contained phrase is true, no
short-circuit fires and processing proceeds to the page-scanning phase. -/
theorem claim_C1 (env : Env) (a : Answerer) (qd : Question) (n : Nat)
    (name sha1 : String)
    (hname : extract_company_name env.nameOracle qd.text = some name)
    (hne : name ≠ "")
    (hfind : find_pdf_for_company a.company_to_sha1 name = some sha1)
    (hsha : sha1 ≠ "")
    (hex : env.pdfExists sha1 = true)
    (hpg : env.pdfPages sha1 ≠ []) :
    ((qd.kind = "boolean" →
      strContains (pyLower qd.text) "did" = true →
      ((strContains (pyLower qd.text) "share buyback" = true ∧
          (((dictGet sha1 a.sha1_to_meta).getD
            emptyMeta).has_share_buyback_plans).getD false = false) ∨
       (strContains (pyLower qd.text) "dividend policy" = true ∧
          (((dictGet sha1 a.sha1_to_meta).getD
            emptyMeta).has_dividend_policy_changes).getD false = false) ∨
       (strContains (pyLower qd.text) "mergers" = true ∧
          (((dictGet sha1 a.sha1_to_meta).getD
            emptyMeta).mentions_recent_mergers_and_acquisitions).getD false =
              false)) →
      process_question env a qd n = (shortCircuitRecord qd.text sha1, n))) ∧
    (((strContains (pyLower qd.text) "share buyback" = true →
        (((dictGet sha1 a.sha1_to_meta).getD
          emptyMeta).has_share_buyback_plans).getD false = true) ∧
      (strContains (pyLower qd.text) "dividend policy" = true →
        (((dictGet sha1 a.sha1_to_meta).getD
          emptyMeta).has_dividend_policy_changes).getD false = true) ∧
      (strContains (pyLower qd.text) "mergers" = true →
        (((dictGet sha1 a.sha1_to_meta).getD
          emptyMeta).mentions_recent_mergers_and_acquisitions).getD false =
            true)) →
      process_question env a qd n = scanPhase env qd sha1 (env.pdfPages sha1) n) := by
  have hstep : process_question env a qd n =
      (if shortCircuitHit (pyLower qd.text) qd.kind "share buyback"
          (((dictGet sha1 a.sha1_to_meta).getD
            emptyMeta).has_share_buyback_plans) then
        (shortCircuitRecord qd.text sha1, n)
      else if shortCircuitHit (pyLower qd.text) qd.kind "dividend policy"
          (((dictGet sha1 a.sha1_to_meta).getD
            emptyMeta).has_dividend_policy_changes) then
        (shortCircuitRecord qd.text sha1, n)
      else if shortCircuitHit (pyLower qd.text) qd.kind "mergers"
          (((dictGet sha1 a.sha1_to_meta).getD
            emptyMeta).mentions_recent_mergers_and_acquisitions) then
        (shortCircuitRecord qd.text sha1, n)
      else scanPhase env qd sha1 (env.pdfPages sha1) n) := by
    unfold process_question
    rw [hname]
    dsimp only
    rw [if_neg hne, hfind]
    dsimp only
    rw [if_neg hsha, hex]
    simp only [Bool.not_true, Bool.false_eq_true, if_false]
    rw [if_neg hpg]
  constructor
  · intro hkind hdid hdisj
    by_cases t1 : shortCircuitHit (pyLower qd.text) qd.kind "share buyback"
        (((dictGet sha1 a.sha1_to_meta).getD
          emptyMeta).has_share_buyback_plans) = true
    · rw [hstep, if_pos t1]
    · by_cases t2 : shortCircuitHit (pyLower qd.text) qd.kind "dividend policy"
          (((dictGet sha1 a.sha1_to_meta).getD
            emptyMeta).has_dividend_policy_changes) = true
      · rw [hstep, if_neg (by simp [t1]), if_pos t2]
      · by_cases t3 : shortCircuitHit (pyLower qd.text) qd.kind "mergers"
            (((dictGet sha1 a.sha1_to_meta).getD
              emptyMeta).mentions_recent_mergers_and_acquisitions) = true
        · rw [hstep, if_neg (by simp [t1]), if_neg (by simp [t2]), if_pos t3]
        · exfalso
          rcases hdisj with ⟨hc, hf⟩ | ⟨hc, hf⟩ | ⟨hc, hf⟩
          · exact t1 (shortCircuitHit_true _ _ _ _ hc hf hkind hdid)
          · exact t2 (shortCircuitHit_true _ _ _ _ hc hf hkind hdid)
          · exact t3 (shortCircuitHit_true _ _ _ _ hc hf hkind hdid)
  · intro hflags
    obtain ⟨f1, f2, f3⟩ := hflags
    rw [hstep,
      if_neg (by simp [shortCircuitHit_false_of_flag _ _ _ _ f1]),
      if_neg (by simp [shortCircuitHit_false_of_flag _ _ _ _ f2]),
      if_neg (by simp [shortCircuitHit_false_of_flag _ _ _ _ f3])]

theorem claim_C1_witness :
    process_question envAcme ansAcme qAcme 0 =
      (shortCircuitRecord qAcme.text "abc123", 0) :=
  (claim_C1 envAcme ansAcme qAcme 0 "Acme Corp" "abc123"
    (by decide) (by decide) (by decide) (by decide) (by decide) (by decide)).1
    (by decide) (by decide) (Or.inl ⟨by decide, by decide⟩)

/-! ## The single-question override and the C10 scenario -/

/-- C2, refuted as stated: with one loaded question and an out-of-bounds
`--single-question 1`, `main` logs the error and plain-returns, so the
process terminates with exit code 0 — not the claimed non-zero code — while
indeed writing no output. -/
theorem claim_C2_counterexample :
    ¬ ((mainRun envStub ansStub [⟨"q", "number"⟩] (some 1)).output = none ∧
       (mainRun envStub ansStub [⟨"q", "number"⟩] (some 1)).exitCode ≠ 0) := by
  decide

/-- C2 amended: when the single-question override index is negative or at
least the number of loaded questions, the run aborts before writing any
output file and the process exits normally with exit code 0 (`main` logs the
error and returns). -/
theorem claim_C2_amended (env : Env) (a : Answerer) (questions : List Question)
    (i : Int) (h : i < 0 ∨ (questions.length : Int) ≤ i) :
    mainRun env a questions (some i) = ⟨0, none⟩ := by
  simp only [mainRun, if_pos h]

theorem claim_C2_amended_witness :
    mainRun envStub ansStub [⟨"q", "number"⟩] (some 1) = ⟨0, none⟩ :=
  claim_C2_amended envStub ansStub [⟨"q", "number"⟩] 1 (by decide)

/-- C10: a concrete input on which `process_question` returns a record whose
value is not `"N/A"` while its references are empty: the single priority
batch's answer `"42"` is accepted, the one single-page re-query answers
`"different"`, so the page sentinel stays `-1`, and the remaining pass is
skipped because a non-`"N/A"` answer exists. -/
theorem claim_C10 :
    (process_question envC10 ansC10 qC10 0).1.value ≠ "N/A" ∧
    (process_question envC10 ansC10 qC10 0).1.references = [] := by
  constructor
  · decide
  · decide

end RagChallenge
